import Mathlib

set_option linter.unusedVariables false
set_option linter.unusedSectionVars false

/-!
Shallow embedding of the binary-search / AVL tree engine implemented in
`code/libs/tree` (files `tree.hpp`, `node.hpp`, `tree_implementation.hpp`,
`node_implementation.hpp`).

Modelling conventions:

* The four C++ node shapes `Node<KT, VT, balanced>` (key-only / key-value ×
  unbalanced / AVL) are embedded as one inductive `NTree` whose nodes carry a
  key, a value, a balance factor and a duplicates list.  The key-only
  instantiation (`VT = void`) is the instantiation `β = Unit`; the unbalanced
  instantiation simply never reads or writes `bf` and `dups` (they stay `0`
  and `[]`), exactly as the C++ `BSTNode` has no such members.
* `nil` is the null `NodePtr`; a `node` is a `NodePtr` owning its subtrees.
* The C++ template parameter `balanced` and the constructor flag
  `allowDuplicateKeys` become fields of `TreeSt`; `if constexpr (balanced)`
  becomes an ordinary test of that field, which is faithful because the field
  is never mutated by the operations.
* `size_t count` is a `Nat` (no operation modelled here underflows it),
  `int balanceFactor` is an `Int`, the mutable `height` cache and its
  `invalidateHeight` flag are plain fields updated exactly where the C++
  updates them.
* The iterative C++ loops that walk a `NodePtr*` "pointer to slot" become
  structural recursions returning the updated subtree, which is the standard
  functional reading of slot assignment.
* `Tree::remove(key, all)` in the unbalanced branch captures
  `currentLeft = &(*current)->left` and, when `all && allowDuplicateKeys`,
  keeps iterating through that pointer after `removeNode` has destroyed the
  node it points into, i.e. it reads (and possibly writes) freed memory.
  That continuation has no defined C++ semantics, so the embedding of the
  remove operations returns an `Option`, with `none` marking exactly the
  point where execution would touch the freed node.
-/

section TreeModel

variable {α β : Type} [LinearOrder α] [DecidableEq β]

/-- Node graph: `nil` is the null `NodePtr`; a node stores `key`, `value`,
`balanceFactor`, the AVL `duplicates` list and the two child pointers. -/
inductive NTree (α β : Type) where
  | nil : NTree α β
  | node (key : α) (value : β) (bf : Int) (dups : List (α × β))
      (l r : NTree α β) : NTree α β
deriving DecidableEq, Repr

/-- Fresh leaf, as built by `std::make_shared<NodeType>(key, value)`: children
null, `balanceFactor = 0`, `duplicates` empty. -/
def leafNode (k : α) (v : β) : NTree α β := .node k v 0 [] .nil .nil

/-- Balance factor of a node (`0` on the null pointer; never read there by the
C++ code paths we follow). -/
def bfOf : NTree α β → Int
  | .nil => 0
  | .node _ _ bf _ _ _ => bf

/-- Left child pointer. -/
def leftOf : NTree α β → NTree α β
  | .nil => .nil
  | .node _ _ _ _ l _ => l

/-- Right child pointer. -/
def rightOf : NTree α β → NTree α β
  | .nil => .nil
  | .node _ _ _ _ _ r => r

/-- Replace the left child (identity on the null pointer). -/
def setLeft : NTree α β → NTree α β → NTree α β
  | .nil, _ => .nil
  | .node k v bf d _ r, l2 => .node k v bf d l2 r

/-- Replace the right child (identity on the null pointer). -/
def setRight : NTree α β → NTree α β → NTree α β
  | .nil, _ => .nil
  | .node k v bf d l _, r2 => .node k v bf d l r2

/-- Height computation of `Tree::getHeight(NodePtr)`: empty tree has height
`0`, otherwise `1 + max` of the children heights. -/
def heightOf : NTree α β → Nat
  | .nil => 0
  | .node _ _ _ _ l r => 1 + max (heightOf l) (heightOf r)

/-- Direction taken when descending one link. -/
inductive Dir where
  | left
  | right
deriving DecidableEq, Repr

/-- Subtree reached from `t` by following a path of directions. -/
def subtreeAt : NTree α β → List Dir → NTree α β
  | t, [] => t
  | .nil, _ :: _ => .nil
  | .node _ _ _ _ l _, .left :: p => subtreeAt l p
  | .node _ _ _ _ _ r, .right :: p => subtreeAt r p

/-- Replace the subtree reached by a path. -/
def replaceAt : NTree α β → List Dir → NTree α β → NTree α β
  | _, [], s => s
  | .nil, _ :: _, _ => .nil
  | .node k v bf d l r, .left :: p, s => .node k v bf d (replaceAt l p s) r
  | .node k v bf d l r, .right :: p, s => .node k v bf d l (replaceAt r p s)

/-- Model of `Tree::updateBalanceFactors`: recomputes every balance factor
from subtree heights and reports the deepest node with `|bf| > 1`, as a path
(the C++ returns a `NodePtr*` into the structure).  A subtree result is
preferred over the current node, and the left result over the right one,
mirroring the C++ selection. -/
def updateBF : NTree α β → NTree α β × Option (List Dir)
  | .nil => (.nil, none)
  | .node k v _ d l r =>
    let bf : Int := (heightOf r : Int) - (heightOf l : Int)
    let lp := updateBF l
    let rp := updateBF r
    let here : Option (List Dir) := if 1 < bf.natAbs then some [] else none
    let sub : Option (List Dir) :=
      match lp.2, rp.2 with
      | some p, _ => some (.left :: p)
      | none, some p => some (.right :: p)
      | none, none => here
    (.node k v bf d lp.1 rp.1, sub)

/-- Model of `Tree::rotateLeft`: promote the right child.  The C++ never calls
it on a node without a right child; on such inputs the model is the
identity. -/
def rotateL : NTree α β → NTree α β
  | .node k v bf d l (.node k2 v2 bf2 d2 l2 r2) =>
      .node k2 v2 bf2 d2 (.node k v bf d l l2) r2
  | t => t

/-- Model of `Tree::rotateRight`: promote the left child. -/
def rotateR : NTree α β → NTree α β
  | .node k v bf d (.node k2 v2 bf2 d2 l2 r2) r =>
      .node k2 v2 bf2 d2 l2 (.node k v bf d r2 r)
  | t => t

/-- Rotation performed by `Tree::balance` on the imbalanced node it found:
right-heavy does an optional right rotation of the right child followed by a
left rotation; left-heavy is symmetric. -/
def rotAdjust (z : NTree α β) : NTree α β :=
  if 1 < bfOf z then
    rotateL (if bfOf (rightOf z) < 0 then setRight z (rotateR (rightOf z)) else z)
  else
    rotateR (if 0 < bfOf (leftOf z) then setLeft z (rotateL (leftOf z)) else z)

/-- Rotation step of `Tree::balance` applied at the deepest imbalanced node
found by `updateBF` (the C++ rotates in place through the returned
pointer). -/
def applyRot (t : NTree α β) (p : List Dir) : NTree α β :=
  replaceAt t p (rotAdjust (subtreeAt t p))

/-- Model of `Tree::balance`: refresh all balance factors, rotate once at the
deepest imbalanced node if there is one, then refresh the factors again (the
C++ comment claims "Definitely no more imbalanced nodes"). -/
def balance (t : NTree α β) : NTree α β :=
  let u := updateBF t
  let t2 :=
    match u.2 with
    | none => u.1
    | some p => applyRot u.1 p
  (updateBF t2).1

/-- Descent loop shared by `Tree::insert(KT)` and `Tree::insert(KT, T)`.
Returns the updated subtree, the `inserted` flag and the `isDuplicateKey`
flag.  On an equal key: if duplicates are disallowed the loop breaks, and the
post-loop code (`if(!isDuplicateKey || !balanced)`) still runs for the
unbalanced tree, overwriting the slot of the equal node with a fresh leaf; the
AVL tree appends to the node's duplicates list via `addDuplicateItem` (its
key-equality precondition holds here); the unbalanced tree with duplicates
allowed descends left. -/
def insLoop (aD bal : Bool) (k : α) (v : β) (isDup : Bool) :
    NTree α β → NTree α β × Bool × Bool
  | .nil =>
    if !isDup || !bal then (leafNode k v, true, isDup) else (.nil, false, isDup)
  | .node k2 v2 bf d l r =>
    if k = k2 then
      if !aD then
        if bal then (.node k2 v2 bf d l r, false, true)
        else (leafNode k v, true, true)
      else
        if bal then (.node k2 v2 bf (d ++ [(k, v)]) l r, true, true)
        else
          let res := insLoop aD bal k v true l
          (.node k2 v2 bf d res.1 r, res.2)
    else if k < k2 then
      let res := insLoop aD bal k v isDup l
      (.node k2 v2 bf d res.1 r, res.2)
    else
      let res := insLoop aD bal k v isDup r
      (.node k2 v2 bf d l res.1, res.2)

/-- State of a `Tree<NT, KT, VT, balanced>` object: root pointer, the
`allowDuplicateKeys` construction flag, the template parameter `balanced`,
the cached `count`, the cached `height` and its invalidation flag. -/
structure TreeSt (α β : Type) where
  root : NTree α β
  allowDuplicateKeys : Bool
  balanced : Bool
  count : Nat
  height : Nat
  invalidateHeight : Bool
deriving DecidableEq, Repr

/-- A freshly constructed tree, `Tree(allowDuplicateKeys)`: null root,
`count = 0`, `height = 0`, valid (false) invalidation flag. -/
def TreeSt.new (bal aD : Bool) : TreeSt α β :=
  ⟨.nil, aD, bal, 0, 0, false⟩

/-- Model of `Tree::insert(KT)` / `Tree::insert(KT, T)` (the key-only variant
is the instantiation `β = Unit`).  On success the count is incremented; the
AVL tree sets `invalidateHeight` to `!isDuplicateKey` and rebalances exactly
when that is true; the unbalanced tree always invalidates the height. -/
def TreeSt.insert (t : TreeSt α β) (k : α) (v : β) : TreeSt α β × Bool :=
  let res := insLoop t.allowDuplicateKeys t.balanced k v false t.root
  if res.2.1 then
    let t1 : TreeSt α β := { t with root := res.1, count := t.count + 1 }
    if t.balanced then
      let t2 : TreeSt α β := { t1 with invalidateHeight := !res.2.2 }
      if !res.2.2 then ({ t2 with root := balance t2.root }, true) else (t2, true)
    else ({ t1 with invalidateHeight := true }, true)
  else ({ t with root := res.1 }, false)

/-- Model of `Tree::insert(const InsertInputVector&)`: inserts in order and
counts the successful insertions. -/
def TreeSt.insertMany : TreeSt α β → List (α × β) → TreeSt α β × Nat
  | t, [] => (t, 0)
  | t, it :: rest =>
    let r := t.insert it.1 it.2
    let res := TreeSt.insertMany r.1 rest
    (res.1, (if r.2 then 1 else 0) + res.2)

/-- Descent of `Tree::getCount(KT)`: AVL adds the node's occurrence count
(`1 + duplicates.size()`) and stops; the unbalanced tree counts the node and,
if duplicates are allowed, keeps counting in the left subtree. -/
def getCountKeyGo (bal aD : Bool) (k : α) : NTree α β → Nat
  | .nil => 0
  | .node k2 _ _ d l r =>
    if k2 = k then
      if bal then 1 + d.length
      else 1 + (if aD then getCountKeyGo bal aD k l else 0)
    else if k < k2 then getCountKeyGo bal aD k l
    else getCountKeyGo bal aD k r

/-- Model of `Tree::getCount(KT)`. -/
def TreeSt.getCountKey (t : TreeSt α β) (k : α) : Nat :=
  getCountKeyGo t.balanced t.allowDuplicateKeys k t.root

/-- Model of `Tree::getCount()`: returns the cached count. -/
def TreeSt.getCount (t : TreeSt α β) : Nat := t.count

/-- Model of the public `Tree::getHeight()`: recompute (and refresh the
mutable cache) only when the invalidation flag is set, otherwise return the
cached value unchecked. -/
def TreeSt.getHeightPub (t : TreeSt α β) : Nat × TreeSt α β :=
  if t.invalidateHeight then
    (heightOf t.root, { t with height := heightOf t.root, invalidateHeight := false })
  else (t.height, t)

/-- One step of `Tree::getNodesAtLevel`: the next level holds, for every slot,
the two children (two null slots under a null slot). -/
def nextLevel (ns : List (NTree α β)) : List (NTree α β) :=
  ns.flatMap fun n =>
    match n with
    | .nil => [.nil, .nil]
    | .node _ _ _ _ l r => [l, r]

/-- Levels as produced by repeated `getNodesAtLevel` calls of
`Tree::getItems`, starting from `[root]`. -/
def levelNodes (root : NTree α β) : Nat → List (NTree α β)
  | 0 => [root]
  | n + 1 => nextLevel (levelNodes root n)

/-- Items contributed by one slot in `Tree::getItems`: the node's own pair
followed by its duplicates, nothing for a null slot. -/
def nodeItems : NTree α β → List (α × β)
  | .nil => []
  | .node k v _ d _ _ => (k, v) :: d

/-- Model of `Tree::getItems`: on a non-null root, query `getHeight()` (using
the cache as is) and collect the levels `0 .. height-1` in order; the mutable
height cache update is returned as the second component. -/
def TreeSt.getItems (t : TreeSt α β) : List (α × β) × TreeSt α β :=
  match t.root with
  | .nil => ([], t)
  | .node _ _ _ _ _ _ =>
    let h := t.getHeightPub
    ((List.range h.1).flatMap fun lvl => (levelNodes t.root lvl).flatMap nodeItems, h.2)

/-- Recursion of `Tree::getSortedKeys(NodePtr, bool)`: in-order concatenation
pushing only each node's primary key (duplicates lists are not consulted). -/
def sortedKeysGo (rev : Bool) : NTree α β → List α
  | .nil => []
  | .node k _ _ _ l r =>
    if rev then sortedKeysGo rev r ++ [k] ++ sortedKeysGo rev l
    else sortedKeysGo rev l ++ [k] ++ sortedKeysGo rev r

/-- Model of `Tree::getSortedKeys(bool)`. -/
def TreeSt.getSortedKeys (t : TreeSt α β) (rev : Bool) : List α :=
  sortedKeysGo rev t.root

/-- Number of nodes in the graph. -/
def nodeCount : NTree α β → Nat
  | .nil => 0
  | .node _ _ _ _ l r => 1 + nodeCount l + nodeCount r

/-- Total number of duplicate-list entries in the graph. -/
def dupsTotal : NTree α β → Nat
  | .nil => 0
  | .node _ _ _ d l r => d.length + dupsTotal l + dupsTotal r

/-- Number of live items stored: primary slots plus duplicate-list entries. -/
def liveCount (t : NTree α β) : Nat := nodeCount t + dupsTotal t

/-- Number of live occurrences of a key (primary slots with that key plus
duplicate entries with that key). -/
def keyOcc (k : α) : NTree α β → Nat
  | .nil => 0
  | .node k2 _ _ d l r =>
    (if k2 = k then 1 else 0) + d.countP (fun p => p.1 = k)
      + keyOcc k l + keyOcc k r

/-- Checks that every node of the graph satisfies the AVL invariant
`|balanceFactor| <= 1`. -/
def allBalanced : NTree α β → Bool
  | .nil => true
  | .node _ _ bf _ l r => decide (bf.natAbs ≤ 1) && allBalanced l && allBalanced r

/-- Splice of `Tree::removeDoubleChildNode` inside the right subtree: descend
`successor = successor->left` while `successor->left->left` exists, then
detach `successor->left` (the in-order successor, whose own left pointer is
null) replacing it by its right child.  Returns the detached node's fields
(it keeps its balance factor and duplicates) and the updated subtree; `none`
when the right subtree has no left child, in which case the C++ takes the
`else` branch. -/
def spliceLeft : NTree α β → Option ((α × β × Int × List (α × β)) × NTree α β)
  | .nil => none
  | .node k v bf d c rr =>
    match c with
    | .nil => none
    | .node kc vc bfc dc .nil rc =>
      some ((kc, vc, bfc, dc), .node k v bf d rc rr)
    | .node _ _ _ _ (.node _ _ _ _ _ _) _ =>
      (spliceLeft c).map fun pr => (pr.1, .node k v bf d pr.2 rr)

/-- Model of `Tree::removeDoubleChildNode` for a node with left subtree `l`
and right subtree `r`: if `r` has no left child, `r` itself replaces the
node (receiving `l` as left child); otherwise the in-order successor replaces
it, keeping its own fields, with `l` on its left and the spliced `r` on its
right.  The removed node's own duplicates die with it. -/
def removeDouble (l r : NTree α β) : NTree α β :=
  match spliceLeft r with
  | none =>
    match r with
    | .nil => .nil
    | .node kr vr bfr dr _ rr => .node kr vr bfr dr l rr
  | some (⟨ks, vs, bfs, ds⟩, r2) => .node ks vs bfs ds l r2

/-- Model of `Tree::removeNode`: childless nodes are nulled, single-child
nodes are replaced by their child, double-child nodes by their in-order
successor. -/
def removeNode : NTree α β → NTree α β
  | .nil => .nil
  | .node _ _ _ _ .nil .nil => .nil
  | .node _ _ _ _ l .nil => l
  | .node _ _ _ _ .nil r => r
  | .node _ _ _ _ l r => removeDouble l r

/-- Descent loop of `Tree::remove(KT, bool)`.  Returns the updated subtree,
the deleted count and whether the node graph changed (which at tree level
triggers `invalidateHeight` and, for AVL, `balance`).  The AVL branch either
removes the whole node (count `getCount() = 1 + |duplicates|`) when `all` is
set or the duplicates list is empty, or pops the front duplicate into the
primary slot.  The unbalanced branch removes the matched node and then, when
`all && allowDuplicateKeys`, continues the loop through `currentLeft`, a
pointer into the node `removeNode` has just destroyed: that read of freed
memory has no defined behaviour, so the model stops with `none` there. -/
def removeKeyGo (bal aD all : Bool) (k : α) :
    NTree α β → Option (NTree α β × Nat × Bool)
  | .nil => some (.nil, 0, false)
  | .node k2 v2 bf d l r =>
    if k2 = k then
      if bal then
        if all || d.isEmpty then
          some (removeNode (.node k2 v2 bf d l r), 1 + d.length, true)
        else
          match d with
          | [] => some (.node k2 v2 bf d l r, 0, false)
          | (k3, v3) :: rest => some (.node k3 v3 bf rest l r, 1, false)
      else
        if !all || !aD then some (removeNode (.node k2 v2 bf d l r), 1, true)
        else none
    else if k < k2 then
      (removeKeyGo bal aD all k l).map fun res => (.node k2 v2 bf d res.1 r, res.2)
    else
      (removeKeyGo bal aD all k r).map fun res => (.node k2 v2 bf d l res.1, res.2)

/-- Model of `Tree::remove(KT, bool)` at tree level: apply the loop, then the
count / height-cache / balance updates the loop body performs. -/
def TreeSt.removeKey (t : TreeSt α β) (k : α) (all : Bool) :
    Option (TreeSt α β × Nat) :=
  (removeKeyGo t.balanced t.allowDuplicateKeys all k t.root).map fun res =>
    match res with
    | (root2, dc, structural) =>
      if dc = 0 then ({ t with root := root2 }, 0)
      else if structural then
        if t.balanced then
          ({ t with
              root := balance root2
              count := t.count - dc
              invalidateHeight := true }, dc)
        else
          ({ t with
              root := root2
              count := t.count - dc
              invalidateHeight := true }, dc)
      else ({ t with root := root2, count := t.count - dc }, dc)

/-- Scan of the duplicates list in `Tree::remove(KT, T, bool)` when the
node's own value does not match: erase the matching entries (all of them when
`all`, otherwise the first).  Returns the new list and the number erased. -/
def eraseMatches (all : Bool) (target : β) :
    List (α × β) → List (α × β) × Nat
  | [] => ([], 0)
  | (k2, v2) :: rest =>
    if v2 = target then
      if all then
        let res := eraseMatches all target rest
        (res.1, res.2 + 1)
      else (rest, 1)
    else
      let res := eraseMatches all target rest
      ((k2, v2) :: res.1, res.2)

/-- Outcome of the AVL branch of `Tree::remove(KT, T, bool)` at the equal
node: either the node itself is finally removed (after `pops` front-pops that
each already decremented the tree count), or the node stays with updated
primary slot and duplicates, `dc` items having been removed. -/
inductive AVLOut (α β : Type) where
  | structRem (pops : Nat) : AVLOut α β
  | stay (k : α) (v : β) (d : List (α × β)) (dc : Nat) : AVLOut α β

/-- The `while` iterations of `Tree::remove(KT, T, bool)` that stay on the
equal AVL node: with an empty duplicates list a value match deletes the node
(the C++ then assigns `deletedCount = getCount() = 1`, discarding the pops
already counted) and a mismatch stops; with a non-empty list a value match
pops the front pair into the primary slot and continues while `all`, and a
mismatch scans the duplicates list. -/
def avlBranch (all : Bool) (target : β) (k2 : α) (v2 : β) :
    List (α × β) → Nat → AVLOut α β
  | [], acc => if v2 = target then .structRem acc else .stay k2 v2 [] acc
  | (k3, v3) :: rest, acc =>
    if v2 = target then
      if all then avlBranch all target k3 v3 rest (acc + 1)
      else .stay k3 v3 rest (acc + 1)
    else
      let res := eraseMatches all target ((k3, v3) :: rest)
      .stay k2 v2 res.1 (acc + res.2)

/-- Descent loop of `Tree::remove(KT, T, bool)`.  Returns the updated
subtree, the returned deleted count, the total decrement applied to the tree
count (these differ when the AVL branch pops duplicates and then deletes the
node, because the C++ overwrites `deletedCount` with `getCount()`), and
whether the node graph changed.  The unbalanced branch descends left on a
value mismatch when duplicates are allowed, and after a removal continues
through the freed node exactly as `remove(KT, bool)` does, so the model
returns `none` at that undefined read. -/
def removeKVGo (bal aD all : Bool) (k : α) (target : β) :
    NTree α β → Option (NTree α β × Nat × Nat × Bool)
  | .nil => some (.nil, 0, 0, false)
  | .node k2 v2 bf d l r =>
    if k2 = k then
      if bal then
        match avlBranch all target k2 v2 d 0 with
        | .structRem pops =>
          some (removeNode (.node k2 v2 bf [] l r), 1, pops + 1, true)
        | .stay k3 v3 d3 dc => some (.node k3 v3 bf d3 l r, dc, dc, false)
      else
        if v2 ≠ target ∧ !aD then some (.node k2 v2 bf d l r, 0, 0, false)
        else if v2 ≠ target then
          (removeKVGo bal aD all k target l).map fun res =>
            (.node k2 v2 bf d res.1 r, res.2)
        else
          if !all || !aD then some (removeNode (.node k2 v2 bf d l r), 1, 1, true)
          else none
    else if k < k2 then
      (removeKVGo bal aD all k target l).map fun res =>
        (.node k2 v2 bf d res.1 r, res.2)
    else
      (removeKVGo bal aD all k target r).map fun res =>
        (.node k2 v2 bf d l res.1, res.2)

/-- Model of `Tree::remove(KT, T, bool)` at tree level. -/
def TreeSt.removeKV (t : TreeSt α β) (k : α) (v : β) (all : Bool) :
    Option (TreeSt α β × Nat) :=
  (removeKVGo t.balanced t.allowDuplicateKeys all k v t.root).map fun res =>
    match res with
    | (root2, dc, cdec, structural) =>
      if structural then
        if t.balanced then
          ({ t with
              root := balance root2
              count := t.count - cdec
              invalidateHeight := true }, dc)
        else
          ({ t with
              root := root2
              count := t.count - cdec
              invalidateHeight := true }, dc)
      else ({ t with root := root2, count := t.count - cdec }, dc)

/-- Model of `Tree::remove(const std::vector<std::pair<KT, VT>>&, bool)`:
the loop body calls `remove(pair.first, pair.second)` without forwarding the
`all` parameter, so every per-pair removal runs with the default
`all = false`. -/
def TreeSt.removePairs (t : TreeSt α β) (pairs : List (α × β)) (all : Bool) :
    Option (TreeSt α β × Nat) :=
  pairs.foldl
    (fun acc p =>
      acc.bind fun tn =>
        (tn.1.removeKV p.1 p.2 false).map fun res => (res.1, tn.2 + res.2))
    (some (t, 0))

/-- Model of the constructor `Tree(items, allowDuplicateKeys)`: a fresh tree
into which the items are bulk-inserted. -/
def treeOfItems (bal aD : Bool) (items : List (α × β)) : TreeSt α β :=
  ((TreeSt.new bal aD).insertMany items).1

/-- Model of the copy constructor `Tree(other)`, defined as
`Tree(other.getItems(), other.isDuplicationAllowed())`: it adopts the
source's duplicate policy. -/
def TreeSt.copyCtor (s : TreeSt α β) : TreeSt α β :=
  treeOfItems s.balanced s.allowDuplicateKeys s.getItems.1

/-- Model of the copy assignment `operator=(const Tree&)`: `clear()` (which
resets root, count and the height cache but not `allowDuplicateKeys`)
followed by `insert(other.getItems())`, so the destination keeps its own
duplicate policy. -/
def TreeSt.copyAssign (d s : TreeSt α β) : TreeSt α β :=
  (({ d with
      root := .nil
      count := 0
      height := 0
      invalidateHeight := false } : TreeSt α β).insertMany s.getItems.1).1

/-- True when the insertion descent of `Tree::insert` meets a node with an
equal key (rather than falling off the tree). -/
def findsKey (k : α) : NTree α β → Bool
  | .nil => false
  | .node k2 _ _ _ l r =>
    if k = k2 then true
    else if k < k2 then findsKey k l
    else findsKey k r

/-- Structural update performed by a duplicate insertion into an AVL tree
with duplicates allowed: append the pair to the duplicates list of the node
found on the search path, changing nothing else in the graph. -/
def appendDupAt (k : α) (v : β) : NTree α β → NTree α β
  | .nil => .nil
  | .node k2 v2 bf d l r =>
    if k = k2 then .node k2 v2 bf (d ++ [(k, v)]) l r
    else if k < k2 then .node k2 v2 bf d (appendDupAt k v l) r
    else .node k2 v2 bf d l (appendDupAt k v r)

/-- Lower-bound side condition of the ordering invariant. -/
def loLt (lo : Option α) (k : α) : Prop :=
  match lo with
  | none => True
  | some a => a < k

/-- Upper-bound side condition of the ordering invariant. -/
def hiGt (hi : Option α) (k : α) : Prop :=
  match hi with
  | none => True
  | some a => k < a

/-- Strict binary-search ordering invariant with open bounds: every key in
the left subtree is smaller and every key in the right subtree larger than
the node key.  This is the shape maintained by the engine when duplicate keys
are disallowed. -/
def OrdB : Option α → Option α → NTree α β → Prop
  | _, _, .nil => True
  | lo, hi, .node k _ _ _ l r =>
    loLt lo k ∧ hiGt hi k ∧ OrdB lo (some k) l ∧ OrdB (some k) hi r

end TreeModel

section SerModel

/-!
Byte-level model of the serializer for the instantiation
`Tree<AVLNode/BSTNode, int64, int64>` of the length-prefixed format: every
record is an 8-byte little-endian `size_t` size field followed by that many
raw bytes; fundamental types are written as their in-memory bytes (8-byte
two's-complement integers here, `sizeof(bool) = 1` for the flag).  A byte is
a `Nat` (the streams built by the serializer only contain values below 256).
File opening always succeeds in the model; the stream is the file content.
-/

/-- Little-endian bytes of a natural number, `w` bytes wide. -/
def natLE : Nat → Nat → List Nat
  | 0, _ => []
  | w + 1, n => n % 256 :: natLE w (n / 256)

/-- Value of a little-endian byte list. -/
def leBytesToNat : List Nat → Nat
  | [] => 0
  | b :: bs => b + 256 * leBytesToNat bs

/-- In-memory bytes of a 64-bit two's-complement integer. -/
def encInt64 (x : Int) : List Nat := natLE 8 ((x % (2 ^ 64)).toNat)

/-- Integer read back from 8 in-memory bytes of a 64-bit two's-complement
value. -/
def decInt64 (bs : List Nat) : Int :=
  let n := leBytesToNat bs
  if n < 2 ^ 63 then (n : Int) else (n : Int) - 2 ^ 64

/-- The 8-byte size field written before every payload. -/
def sizeRec (n : Nat) : List Nat := natLE 8 n

/-- Record written by `serializeVariable<bool>`: size `sizeof(bool) = 1`,
then the flag byte. -/
def boolRec (b : Bool) : List Nat := sizeRec 1 ++ [if b then 1 else 0]

/-- Record written by `serializeVariable<int64>`: size 8, then the raw
bytes. -/
def intRec (x : Int) : List Nat := sizeRec 8 ++ encInt64 x

/-- Bytes written for one key-value item: the key record then the value
record. -/
def kvRec (p : Int × Int) : List Nat := intRec p.1 ++ intRec p.2

/-- One `ifstream::read(buf, n)`: succeeds consuming exactly `n` bytes, or
fails (sets the fail bit) when fewer remain. -/
def readBytes (n : Nat) (s : List Nat) : Option (List Nat × List Nat) :=
  if n ≤ s.length then some (s.take n, s.drop n) else none

/-- Result of one `deserializeVariable` call: `fail` is a stream read failure
(`good()` false), `ok` carries the payload and the rest of the stream, and
`ub` marks a size field different from `sizeof(T)`, where the C++ `read`s
that many bytes into the `w`-byte object `var` (overflowing it or leaving it
partially indeterminate) — behaviour the model does not define. -/
inductive RR (γ : Type) where
  | ub : RR γ
  | fail : RR γ
  | ok (v : γ) (rest : List Nat) : RR γ
deriving DecidableEq, Repr

/-- Model of `deserializeVariable` for a fundamental type of width `w`: read
the 8-byte size field, then that many payload bytes. -/
def readFund (w : Nat) (s : List Nat) : RR (List Nat) :=
  match readBytes 8 s with
  | none => .fail
  | some (szb, s1) =>
    let n := leBytesToNat szb
    match readBytes n s1 with
    | none => .fail
    | some (payload, s2) => if n = w then .ok payload s2 else .ub

/-- Value of the single byte holding a `bool`. -/
def decBoolBytes : List Nat → Bool
  | [b] => b != 0
  | _ => false

/-- Model of `deserializeVariable<bool>`. -/
def readBoolVar (s : List Nat) : RR Bool :=
  match readFund 1 s with
  | .ub => .ub
  | .fail => .fail
  | .ok payload rest => .ok (decBoolBytes payload) rest

/-- Model of `deserializeVariable<int64>`. -/
def readIntVar (s : List Nat) : RR Int :=
  match readFund 8 s with
  | .ub => .ub
  | .fail => .fail
  | .ok payload rest => .ok (decInt64 payload) rest

/-- Record-reading loop of `Tree::deserialize` for a key-value tree: a failed
key read is normal end of stream (break without setting `failedRead`); a
failed value read after a successful key read sets `failedRead` (corrupt
file, inner `none`); outer `none` is the undefined-size case.  The fuel is
`stream length + 1`, more than enough since every iteration consumes at least
16 bytes. -/
def dLoop : Nat → List Nat → Option (Option (List (Int × Int)))
  | 0, _ => none
  | fuel + 1, s =>
    match readIntVar s with
    | .fail => some (some [])
    | .ub => none
    | .ok k s1 =>
      match readIntVar s1 with
      | .fail => some none
      | .ub => none
      | .ok v s2 =>
        match dLoop fuel s2 with
        | some (some items) => some (some ((k, v) :: items))
        | x => x

/-- Model of `Tree::deserialize` on the file bytes `s` (file open succeeds):
read the `allowDuplicateKeys` flag, then records until the key read fails;
on a corrupt file (flag read failure or mid-item value read failure) the
default-constructed tree — empty, with the default `allowDuplicateKeys =
true` — is returned; otherwise `Tree(items, allowDuplicateKeys)`. -/
def deserializeBytes (bal : Bool) (s : List Nat) : Option (TreeSt Int Int) :=
  match readBoolVar s with
  | .ub => none
  | .fail => some (TreeSt.new bal true)
  | .ok b s1 =>
    match dLoop (s1.length + 1) s1 with
    | none => none
    | some none => some (TreeSt.new bal true)
    | some (some items) => some (treeOfItems bal b items)

/-- Model of `Tree::serialize` on a key-value tree (stream creation and all
writes succeed): the `allowDuplicateKeys` record followed by the records of
`getItems()`; the second component is the tree with the height cache updates
`getItems()` performed on the mutable fields of the const object. -/
def serializeBytes (t : TreeSt Int Int) : List Nat × TreeSt Int Int :=
  let gi := t.getItems
  (boolRec t.allowDuplicateKeys ++ gi.1.flatMap kvRec, gi.2)

/-- In-range condition for a 64-bit key or value. -/
def int64Range (x : Int) : Prop := -(2 ^ 63) ≤ x ∧ x < 2 ^ 63

/-- In-range condition for a key-value item. -/
def pairRange (p : Int × Int) : Prop := int64Range p.1 ∧ int64Range p.2

end SerModel

section ConcreteInputs

/-- Unbalanced key-value tree with duplicates disallowed holding keys
`2, 1, 3` (root `2`, children `1` and `3`). -/
def c1Tree : TreeSt Int Int :=
  ((TreeSt.new false false).insertMany [(2, 0), (1, 0), (3, 0)]).1

/-- Balanced key-only AVL tree built by twelve insertions that never trigger
a rotation, giving the minimal-AVL shape of height 5. -/
def c2Tree : TreeSt Int Unit :=
  ((TreeSt.new true true).insertMany
    (([8, 2, 12, 1, 3, 10, 14, 4, 9, 13, 15, 16] : List Int).map
      (fun k => (k, ())))).1

/-- Unbalanced tree with duplicates disallowed after inserting the key `1`
twice. -/
def c3Tree : TreeSt Int Int :=
  ((TreeSt.new false false).insertMany [(1, 0), (1, 1)]).1

/-- AVL key-value tree with duplicates allowed whose last insertion is a
duplicate, leaving `invalidateHeight = false` with a stale cached height. -/
def c4Tree : TreeSt Int Int :=
  ((TreeSt.new true true).insertMany [(2, 0), (3, 0), (3, 1), (1, 0)]).1

/-- Serialized stream of one complete item record that then ends after the
size field of the next record, i.e. partway through a record. -/
def c5Stream : List Nat := boolRec true ++ kvRec (2, 0) ++ sizeRec 8

/-- AVL key-value tree holding the single key `1` after one structural
insertion, so its height cache is pending invalidation. -/
def c6Tree : TreeSt Int Int := ((TreeSt.new true true).insert 1 10).1

/-- Unbalanced key-value tree with duplicates allowed holding the key `5`
twice (the duplicate nested to the left). -/
def c7Tree : TreeSt Int Int :=
  ((TreeSt.new false true).insertMany [(5, 0), (5, 1)]).1

/-- AVL key-value tree with duplicates allowed holding `(5,8)` in the
primary slot and `(5,7)` twice in the duplicates list. -/
def c8Tree : TreeSt Int Int :=
  ((TreeSt.new true true).insertMany [(5, 8), (5, 7), (5, 7)]).1

/-- Destination for the copy-assignment witness: AVL tree constructed with
duplicates disallowed. -/
def c9Dst : TreeSt Int Int := TreeSt.new true false

/-- Source for the copy-assignment witness: AVL tree with duplicates allowed
holding the key `1` twice. -/
def c9Src : TreeSt Int Int :=
  ((TreeSt.new true true).insertMany [(1, 7), (1, 8)]).1

/-- AVL tree with duplicates allowed holding keys `1, 1, 2` (one duplicate
entry). -/
def c10Tree : TreeSt Int Int :=
  ((TreeSt.new true true).insertMany [(1, 0), (1, 1), (2, 0)]).1

end ConcreteInputs


section ClaimEvaluations

/-- Claim C1: for every tree with `allowDuplicateKeys = false` and a key
already present, `insert` is claimed to return false, insert nothing and
leave the tree unchanged.  Evaluating the code on an unbalanced tree holding
`2, 1, 3` shows that inserting `2` again returns `true`, overwrites the
matched node with a fresh leaf (discarding both subtrees, leaving a single
node) and increments the count to `4`. -/
theorem c1_bst_duplicate_insert_replaces_node :
    c1Tree.allowDuplicateKeys = false ∧ c1Tree.count = 3 ∧
    nodeCount c1Tree.root = 3 ∧
    (c1Tree.insert 2 9).2 = true ∧
    (c1Tree.insert 2 9).1.root = leafNode 2 9 ∧
    (c1Tree.insert 2 9).1.count = 4 := by decide

/-- Claim C2: after every structural mutation of an AVL tree every node is
claimed to satisfy `|balanceFactor| <= 1`.  Evaluating the code on a
12-node minimal AVL tree (built without any rotation) shows that removing
the key `1` leaves the root with balance factor `2`: `balance()` performs a
single rotation at the deepest imbalanced node, which after a removal can
push the imbalance to an ancestor that is never rotated. -/
theorem c2_avl_remove_leaves_imbalance :
    allBalanced c2Tree.root = true ∧
    (c2Tree.removeKey 1 false).map (fun p => allBalanced p.1.root) = some false ∧
    (c2Tree.removeKey 1 false).map (fun p => bfOf p.1.root) = some 2 := by decide

/-- Claim C3: `getCount()` is claimed to always equal the number of live
items.  Evaluating the code on an unbalanced no-duplicates tree after
inserting the key `1` twice shows `getCount() = 2` while the tree holds a
single live item (the duplicate insertion overwrote the node yet still
incremented the count). -/
theorem c3_count_exceeds_live_items :
    c3Tree.getCount = 2 ∧ liveCount c3Tree.root = 1 := by decide

set_option maxRecDepth 4000 in
/-- Claim C4: deserializing a serialized tree is claimed to reproduce the
same multiset of items.  Evaluating the code on an AVL tree whose last
insertion was a duplicate shows the round trip loses everything: the rebuilt
tree ends with `invalidateHeight = false` and a stale cached height `0`, so
its `getItems()` is empty, while the serialized tree reported four items. -/
theorem c4_roundtrip_loses_items :
    (deserializeBytes true (serializeBytes c4Tree).1).map
      (fun d => (d.getItems.1, d.allowDuplicateKeys)) = some ([], true) ∧
    ((serializeBytes c4Tree).2.getItems).1 = [(2, 0), (1, 0), (3, 0), (3, 1)] ∧
    c4Tree.allowDuplicateKeys = true ∧
    ¬ (([] : List (Int × Int)).Perm [(2, 0), (1, 0), (3, 0), (3, 1)]) := by decide

/-- Claim C7: `remove(key, all=true)` is claimed to remove every occurrence
on any tree.  On an unbalanced tree with duplicates allowed holding the key
`5` twice, after deleting the first matched node the loop continues through
`currentLeft`, a pointer into the node that `removeNode` has just destroyed;
the model marks that undefined read as `none`. -/
theorem c7_bst_remove_all_use_after_free :
    c7Tree.getCountKey 5 = 2 ∧ c7Tree.removeKey 5 true = none := by decide

/-- Claim C8: `remove(pairs, all)` is claimed to return the sum of
`remove(key, value, all)` over the pairs.  Evaluating the code on an AVL
tree holding `(5,8)` with duplicates `(5,7), (5,7)` shows
`remove(5, 7, true)` removes two items but `remove([(5,7)], true)` removes
only one: the loop body calls `remove(pair.first, pair.second)` without
forwarding `all`. -/
theorem c8_remove_pairs_drops_all_flag :
    (c8Tree.removeKV 5 7 true).map (fun p => p.2) = some 2 ∧
    (c8Tree.removePairs [(5, 7)] true).map (fun p => p.2) = some 1 := by decide

/-- Claim C5 counterexample: a stream that ends partway through a record
(after the size field of the second record's key) is claimed to be corrupt
and to yield an empty tree; the code instead treats any key-read failure as
normal end of stream and returns the tree of the one complete record. -/
theorem c5_partial_key_record_not_corrupt :
    (deserializeBytes true c5Stream).map (fun d => (d.getItems.1, d.count))
      = some ([(2, 0)], 1) := by decide

/-- Claim C6 counterexample: a duplicate insertion into an AVL tree with
duplicates allowed is claimed to leave the height-cache invalidation flag
unaffected; after a structural insertion the flag is `true`, and the
duplicate insertion resets it to `false`. -/
theorem c6_duplicate_insert_clears_invalidation_flag :
    c6Tree.balanced = true ∧ c6Tree.allowDuplicateKeys = true ∧
    findsKey 1 c6Tree.root = true ∧
    c6Tree.invalidateHeight = true ∧
    (c6Tree.insert 1 20).1.invalidateHeight = false := by decide

end ClaimEvaluations

section Lemmas

variable {α β : Type} [LinearOrder α] [DecidableEq β]

/-- The in-order key extraction produces exactly one entry per node of the
graph, in either direction. -/
theorem sortedKeysGo_length (rev : Bool) (n : NTree α β) :
    (sortedKeysGo rev n).length = nodeCount n := by
  induction n with
  | nil => simp [sortedKeysGo, nodeCount]
  | node k v bf d l r ihl ihr =>
    cases rev <;> simp [sortedKeysGo, nodeCount, ihl, ihr] <;> omega

/-- Claim C10: `getSortedKeys` emits only primary-slot keys, one per node,
omitting every duplicates-list entry.  Consequently, on a tree whose cached
count is accurate (as the engine maintains it), the key list is strictly
shorter than `getCount()` whenever duplicate items exist; and on a tree with
no duplicate-list entries (as the unbalanced engine always keeps) it has one
entry per live occurrence. -/
theorem c10_sorted_keys_counts (t : TreeSt α β) (rev : Bool) :
    (t.count = liveCount t.root → 0 < dupsTotal t.root →
      (t.getSortedKeys rev).length < t.getCount) ∧
    (dupsTotal t.root = 0 →
      (t.getSortedKeys rev).length = liveCount t.root) := by
  constructor
  · intro hc hd
    rw [TreeSt.getSortedKeys, sortedKeysGo_length, TreeSt.getCount, hc, liveCount]
    omega
  · intro hd
    rw [TreeSt.getSortedKeys, sortedKeysGo_length, liveCount, hd]
    omega

/-- Witness for C10 at a concrete AVL tree with one duplicate entry. -/
theorem c10_sorted_keys_counts_witness :
    c10Tree.count = liveCount c10Tree.root ∧ 0 < dupsTotal c10Tree.root ∧
    (c10Tree.getSortedKeys false).length < c10Tree.getCount :=
  ⟨by decide, by decide,
    (c10_sorted_keys_counts c10Tree false).1 (by decide) (by decide)⟩

/-- When the insertion descent meets an equal key in an AVL tree with
duplicates allowed, the loop appends the pair to that node's duplicates list
and reports a successful duplicate insertion. -/
theorem insLoop_dup_append (k : α) (v : β) (dup : Bool) (n : NTree α β)
    (hf : findsKey k n = true) :
    insLoop true true k v dup n = (appendDupAt k v n, true, true) := by
  induction n generalizing dup with
  | nil => simp [findsKey] at hf
  | node k2 v2 bf d l r ihl ihr =>
    by_cases h1 : k = k2
    · simp [insLoop, appendDupAt, h1]
    · by_cases h2 : k < k2
      · rw [findsKey] at hf
        simp [h1, h2] at hf
        simp [insLoop, appendDupAt, h1, h2, ihl dup hf]
      · rw [findsKey] at hf
        simp [h1, h2] at hf
        simp [insLoop, appendDupAt, h1, h2, ihr dup hf]

/-- Claim C6 (amended): inserting an already-present key into an AVL tree
with duplicates allowed returns true and only appends the item to the equal
node's duplicates list — no node is created, no rebalancing runs, the cached
height value is untouched and the count grows by one — but the height-cache
invalidation flag is unconditionally set to false (the code assigns
`invalidateHeight = !isDuplicateKey`) instead of being left unchanged. -/
theorem c6_avl_duplicate_insert_appends (t : TreeSt α β) (k : α) (v : β)
    (hb : t.balanced = true) (ha : t.allowDuplicateKeys = true)
    (hf : findsKey k t.root = true) :
    t.insert k v =
      ({ t with
          root := appendDupAt k v t.root
          count := t.count + 1
          invalidateHeight := false }, true) := by
  unfold TreeSt.insert
  rw [ha, hb, insLoop_dup_append k v false t.root hf]
  simp

/-- Witness for the amended C6 at a concrete one-node AVL tree whose
invalidation flag is pending. -/
theorem c6_avl_duplicate_insert_appends_witness :
    findsKey (1 : Int) c6Tree.root = true ∧ c6Tree.invalidateHeight = true ∧
    c6Tree.insert 1 (20 : Int) =
      ({ c6Tree with
          root := appendDupAt 1 20 c6Tree.root
          count := c6Tree.count + 1
          invalidateHeight := false }, true) :=
  ⟨by decide, by decide,
    c6_avl_duplicate_insert_appends c6Tree 1 20 (by decide) (by decide) (by decide)⟩

end Lemmas

section OrderInvariant

variable {α β : Type} [LinearOrder α] [DecidableEq β]

/-- Insertion never changes the duplicate policy or the balanced template
parameter of a tree. -/
theorem insert_flags (t : TreeSt α β) (k : α) (v : β) :
    (t.insert k v).1.allowDuplicateKeys = t.allowDuplicateKeys ∧
    (t.insert k v).1.balanced = t.balanced := by
  unfold TreeSt.insert
  dsimp only
  split
  · split
    · split <;> simp
    · simp
  · simp

/-- Bulk insertion never changes the duplicate policy or the balanced
template parameter. -/
theorem insertMany_flags (items : List (α × β)) :
    ∀ t : TreeSt α β,
      (t.insertMany items).1.allowDuplicateKeys = t.allowDuplicateKeys ∧
      (t.insertMany items).1.balanced = t.balanced := by
  induction items with
  | nil => intro t; simp [TreeSt.insertMany]
  | cons it rest ih =>
    intro t
    have h := insert_flags t it.1 it.2
    have h2 := ih (t.insert it.1 it.2).1
    simp only [TreeSt.insertMany]
    exact ⟨h2.1.trans h.1, h2.2.trans h.2⟩

/-- A lower bound below a key is below anything larger. -/
theorem loLt_mono {lo : Option α} {a b : α} (h : loLt lo a) (hab : a < b) :
    loLt lo b := by
  cases lo with
  | none => trivial
  | some x => exact lt_trans h hab

/-- An upper bound above a key is above anything smaller. -/
theorem hiGt_mono {hi : Option α} {a b : α} (h : hiGt hi a) (hba : b < a) :
    hiGt hi b := by
  cases hi with
  | none => trivial
  | some x => exact lt_trans hba h

/-- Left rotation preserves the ordering invariant. -/
theorem rotateL_ordB {lo hi : Option α} {t : NTree α β} (h : OrdB lo hi t) :
    OrdB lo hi (rotateL t) := by
  cases t with
  | nil => exact h
  | node k v bf d l r =>
    cases r with
    | nil => simpa [rotateL] using h
    | node k2 v2 bf2 d2 l2 r2 =>
      simp only [rotateL, OrdB] at h ⊢
      obtain ⟨h1, h2, h3, h4, h5, h6, h7⟩ := h
      exact ⟨loLt_mono h1 h4, h5, ⟨h1, h4, h3, h6⟩, h7⟩

/-- Right rotation preserves the ordering invariant. -/
theorem rotateR_ordB {lo hi : Option α} {t : NTree α β} (h : OrdB lo hi t) :
    OrdB lo hi (rotateR t) := by
  cases t with
  | nil => exact h
  | node k v bf d l r =>
    cases l with
    | nil => simpa [rotateR] using h
    | node k2 v2 bf2 d2 l2 r2 =>
      simp only [rotateR, OrdB] at h ⊢
      obtain ⟨h1, h2, ⟨h4, h5, h6, h7⟩, h3⟩ := h
      exact ⟨h4, hiGt_mono h2 h5, h6, ⟨h5, h2, h7, h3⟩⟩

/-- Left rotation does not change the total number of duplicate entries. -/
theorem rotateL_dupsTotal (t : NTree α β) : dupsTotal (rotateL t) = dupsTotal t := by
  cases t with
  | nil => rfl
  | node k v bf d l r =>
    cases r with
    | nil => simp [rotateL]
    | node k2 v2 bf2 d2 l2 r2 => simp [rotateL, dupsTotal]; omega

/-- Right rotation does not change the total number of duplicate entries. -/
theorem rotateR_dupsTotal (t : NTree α β) : dupsTotal (rotateR t) = dupsTotal t := by
  cases t with
  | nil => rfl
  | node k v bf d l r =>
    cases l with
    | nil => simp [rotateR]
    | node k2 v2 bf2 d2 l2 r2 => simp [rotateR, dupsTotal]; omega

/-- The balance rotation step preserves the ordering invariant. -/
theorem rotAdjust_ordB {lo hi : Option α} {z : NTree α β} (h : OrdB lo hi z) :
    OrdB lo hi (rotAdjust z) := by
  unfold rotAdjust
  split
  · apply rotateL_ordB
    split
    · cases z with
      | nil => simpa [setRight] using h
      | node k v bf d l r =>
        simp only [setRight, rightOf, OrdB] at h ⊢
        exact ⟨h.1, h.2.1, h.2.2.1, rotateR_ordB h.2.2.2⟩
    · exact h
  · apply rotateR_ordB
    split
    · cases z with
      | nil => simpa [setLeft] using h
      | node k v bf d l r =>
        simp only [setLeft, leftOf, OrdB] at h ⊢
        exact ⟨h.1, h.2.1, rotateL_ordB h.2.2.1, h.2.2.2⟩
    · exact h

/-- The balance rotation step does not change the number of duplicate
entries. -/
theorem rotAdjust_dupsTotal (z : NTree α β) :
    dupsTotal (rotAdjust z) = dupsTotal z := by
  unfold rotAdjust
  split
  · rw [rotateL_dupsTotal]
    split
    · cases z with
      | nil => rfl
      | node k v bf d l r => simp [setRight, rightOf, dupsTotal, rotateR_dupsTotal]
    · rfl
  · rw [rotateR_dupsTotal]
    split
    · cases z with
      | nil => rfl
      | node k v bf d l r => simp [setLeft, leftOf, dupsTotal, rotateL_dupsTotal]
    · rfl

/-- Replacing the subtree at a path by an ordering-preserving transform of
itself preserves the ordering invariant. -/
theorem replaceAt_ordB (g : NTree α β → NTree α β)
    (hg : ∀ (lo hi : Option α) (s : NTree α β), OrdB lo hi s → OrdB lo hi (g s)) :
    ∀ (p : List Dir) (t : NTree α β) (lo hi : Option α), OrdB lo hi t →
      OrdB lo hi (replaceAt t p (g (subtreeAt t p))) := by
  intro p
  induction p with
  | nil => intro t lo hi h; simpa [replaceAt, subtreeAt] using hg lo hi t h
  | cons dd p ih =>
    intro t lo hi h
    cases t with
    | nil => simp [replaceAt, OrdB]
    | node k v bf d l r =>
      cases dd with
      | left =>
        simp only [replaceAt, subtreeAt, OrdB] at h ⊢
        exact ⟨h.1, h.2.1, ih l lo (some k) h.2.2.1, h.2.2.2⟩
      | right =>
        simp only [replaceAt, subtreeAt, OrdB] at h ⊢
        exact ⟨h.1, h.2.1, h.2.2.1, ih r (some k) hi h.2.2.2⟩

/-- Replacing the subtree at a path by a duplicates-preserving transform of
itself preserves the number of duplicate entries. -/
theorem replaceAt_dupsTotal (g : NTree α β → NTree α β)
    (hg : ∀ s : NTree α β, dupsTotal (g s) = dupsTotal s) :
    ∀ (p : List Dir) (t : NTree α β),
      dupsTotal (replaceAt t p (g (subtreeAt t p))) = dupsTotal t := by
  intro p
  induction p with
  | nil => intro t; simp [replaceAt, subtreeAt, hg]
  | cons dd p ih =>
    intro t
    cases t with
    | nil => simp [replaceAt]
    | node k v bf d l r =>
      cases dd with
      | left => simp [replaceAt, subtreeAt, dupsTotal, ih l]
      | right => simp [replaceAt, subtreeAt, dupsTotal, ih r]

/-- Refreshing balance factors preserves the ordering invariant (it touches
no key and no link). -/
theorem updateBF_ordB : ∀ {t : NTree α β} {lo hi : Option α},
    OrdB lo hi t → OrdB lo hi (updateBF t).1 := by
  intro t
  induction t with
  | nil => intro lo hi h; simpa [updateBF] using h
  | node k v bf d l r ihl ihr =>
    intro lo hi h
    simp only [updateBF, OrdB] at h ⊢
    exact ⟨h.1, h.2.1, ihl h.2.2.1, ihr h.2.2.2⟩

/-- Refreshing balance factors does not change the duplicate entries. -/
theorem updateBF_dupsTotal : ∀ t : NTree α β, dupsTotal (updateBF t).1 = dupsTotal t := by
  intro t
  induction t with
  | nil => rfl
  | node k v bf d l r ihl ihr => simp [updateBF, dupsTotal, ihl, ihr]

/-- `balance` preserves the ordering invariant. -/
theorem balance_ordB {lo hi : Option α} {t : NTree α β} (h : OrdB lo hi t) :
    OrdB lo hi (balance t) := by
  unfold balance
  dsimp only
  have h1 := updateBF_ordB h
  cases hu : (updateBF t).2 with
  | none => simp only [hu]; exact updateBF_ordB h1
  | some p =>
    simp only [hu]
    unfold applyRot
    exact updateBF_ordB
      (replaceAt_ordB rotAdjust (fun lo2 hi2 s hs => rotAdjust_ordB hs) p
        (updateBF t).1 lo hi h1)

/-- `balance` does not change the duplicate entries. -/
theorem balance_dupsTotal (t : NTree α β) : dupsTotal (balance t) = dupsTotal t := by
  unfold balance
  dsimp only
  cases hu : (updateBF t).2 with
  | none => simp only [hu]; rw [updateBF_dupsTotal, updateBF_dupsTotal]
  | some p =>
    simp only [hu]
    unfold applyRot
    rw [updateBF_dupsTotal, replaceAt_dupsTotal rotAdjust rotAdjust_dupsTotal,
      updateBF_dupsTotal]

end OrderInvariant

section DistinctKeys

variable {α β : Type} [LinearOrder α] [DecidableEq β]

/-- With duplicates disallowed, the insertion loop preserves the strict
ordering invariant: it adds a leaf only where the key fits, leaves the AVL
tree unchanged on an equal key, and in the unbalanced tree replaces the
equal node by a leaf with the same key. -/
theorem insLoop_ordB (bal : Bool) (k : α) (v : β) :
    ∀ (t : NTree α β) (dup : Bool) (lo hi : Option α), OrdB lo hi t →
      loLt lo k → hiGt hi k →
      OrdB lo hi (insLoop false bal k v dup t).1 := by
  intro t
  induction t with
  | nil =>
    intro dup lo hi h hlo hhi
    by_cases hb : (!dup || !bal) = true
    · simp [insLoop, hb, leafNode, OrdB]
      exact ⟨hlo, hhi⟩
    · simp [insLoop, hb, OrdB]
  | node k2 v2 bf d l r ihl ihr =>
    intro dup lo hi h hlo hhi
    by_cases h1 : k = k2
    · cases bal with
      | false =>
        simp [insLoop, h1, leafNode, OrdB]
        subst h1
        exact ⟨hlo, hhi⟩
      | true => simpa [insLoop, h1] using h
    · by_cases h2 : k < k2
      · simp only [insLoop, if_neg h1, if_pos h2, OrdB] at h ⊢
        exact ⟨h.1, h.2.1, ihl dup lo (some k2) h.2.2.1 hlo h2, h.2.2.2⟩
      · have h3 : k2 < k := lt_of_le_of_ne (not_lt.mp h2) fun he => h1 he.symm
        simp only [insLoop, if_neg h1, if_neg h2, OrdB] at h ⊢
        exact ⟨h.1, h.2.1, h.2.2.1, ihr dup (some k2) hi h.2.2.2 h3 hhi⟩

/-- With duplicates disallowed, the insertion loop never creates duplicate
entries. -/
theorem insLoop_dupsTotal (bal : Bool) (k : α) (v : β) :
    ∀ (t : NTree α β) (dup : Bool), dupsTotal t = 0 →
      dupsTotal (insLoop false bal k v dup t).1 = 0 := by
  intro t
  induction t with
  | nil =>
    intro dup h
    by_cases hb : (!dup || !bal) = true <;> simp [insLoop, hb, leafNode, dupsTotal]
  | node k2 v2 bf d l r ihl ihr =>
    intro dup h
    rw [dupsTotal] at h
    by_cases h1 : k = k2
    · cases bal with
      | false => simp [insLoop, h1, leafNode, dupsTotal]
      | true =>
        have he : (insLoop false true k v dup (.node k2 v2 bf d l r)).1
            = .node k2 v2 bf d l r := by simp [insLoop, h1]
        rw [he, dupsTotal]
        omega
    · by_cases h2 : k < k2
      · simp only [insLoop, if_neg h1, if_pos h2]
        rw [dupsTotal]
        have := ihl dup (by omega)
        omega
      · simp only [insLoop, if_neg h1, if_neg h2]
        rw [dupsTotal]
        have := ihr dup (by omega)
        omega

/-- The root produced by `insert` is the loop result, possibly passed through
`balance`. -/
theorem insert_root_cases (t : TreeSt α β) (k : α) (v : β) :
    (t.insert k v).1.root =
      (insLoop t.allowDuplicateKeys t.balanced k v false t.root).1 ∨
    (t.insert k v).1.root =
      balance (insLoop t.allowDuplicateKeys t.balanced k v false t.root).1 := by
  unfold TreeSt.insert
  dsimp only
  split
  · split
    · split
      · right; rfl
      · left; rfl
    · left; rfl
  · left; rfl

/-- With duplicates disallowed, one insertion preserves the ordering
invariant and the absence of duplicate entries. -/
theorem insert_inv (t : TreeSt α β) (k : α) (v : β)
    (haD : t.allowDuplicateKeys = false)
    (h1 : OrdB none none t.root) (h2 : dupsTotal t.root = 0) :
    OrdB none none (t.insert k v).1.root ∧
    dupsTotal (t.insert k v).1.root = 0 := by
  have hroot := insert_root_cases t k v
  rw [haD] at hroot
  have hO := insLoop_ordB t.balanced k v t.root false none none h1 trivial trivial
  have hD := insLoop_dupsTotal t.balanced k v t.root false h2
  rcases hroot with h | h <;> rw [h]
  · exact ⟨hO, hD⟩
  · exact ⟨balance_ordB hO, by rw [balance_dupsTotal]; exact hD⟩

/-- With duplicates disallowed, bulk insertion preserves the ordering
invariant and the absence of duplicate entries. -/
theorem insertMany_inv (items : List (α × β)) :
    ∀ t : TreeSt α β, t.allowDuplicateKeys = false →
      OrdB none none t.root → dupsTotal t.root = 0 →
      OrdB none none (t.insertMany items).1.root ∧
      dupsTotal (t.insertMany items).1.root = 0 := by
  induction items with
  | nil => intro t h1 h2 h3; exact ⟨h2, h3⟩
  | cons it rest ih =>
    intro t h1 h2 h3
    simp only [TreeSt.insertMany]
    have h4 := insert_inv t it.1 it.2 h1 h2 h3
    exact ih _ ((insert_flags t it.1 it.2).1.trans h1) h4.1 h4.2

/-- In a strictly ordered tree bounded above by `m`, no key at least `m`
occurs (given there are no duplicate entries). -/
theorem occ_zero_hi (t : NTree α β) :
    ∀ (lo : Option α) (m k : α), OrdB lo (some m) t → dupsTotal t = 0 →
      m ≤ k → keyOcc k t = 0 := by
  induction t with
  | nil => intro lo m k h hd hmk; simp [keyOcc]
  | node k2 v2 bf d l r ihl ihr =>
    intro lo m k h hd hmk
    obtain ⟨hlo, hhi, hl, hr⟩ := h
    simp only [dupsTotal, Nat.add_eq_zero] at hd
    have hde : d = [] := List.length_eq_zero.mp (by omega)
    have hne : ¬ (k2 = k) := by
      intro he
      subst he
      exact absurd (lt_of_lt_of_le hhi hmk) (lt_irrefl _)
    rw [keyOcc]
    rw [ihl lo k2 k hl (by omega) (le_of_lt (lt_of_lt_of_le hhi hmk)),
      ihr (some k2) m k hr (by omega) hmk]
    simp [hde, hne]

/-- In a strictly ordered tree bounded below by `m`, no key at most `m`
occurs (given there are no duplicate entries). -/
theorem occ_zero_lo (t : NTree α β) :
    ∀ (hi : Option α) (m k : α), OrdB (some m) hi t → dupsTotal t = 0 →
      k ≤ m → keyOcc k t = 0 := by
  induction t with
  | nil => intro hi m k h hd hmk; simp [keyOcc]
  | node k2 v2 bf d l r ihl ihr =>
    intro hi m k h hd hmk
    obtain ⟨hlo, hhi, hl, hr⟩ := h
    simp only [dupsTotal, Nat.add_eq_zero] at hd
    have hde : d = [] := List.length_eq_zero.mp (by omega)
    have hne : ¬ (k2 = k) := by
      intro he
      subst he
      exact absurd (lt_of_le_of_lt hmk hlo) (lt_irrefl _)
    rw [keyOcc]
    rw [ihl (some k2) m k hl (by omega) hmk,
      ihr hi k2 k hr (by omega) (le_of_lt (lt_of_le_of_lt hmk hlo))]
    simp [hde, hne]

/-- A strictly ordered tree without duplicate entries holds each key at most
once. -/
theorem ordB_occ_le_one (t : NTree α β) :
    ∀ (lo hi : Option α) (k : α), OrdB lo hi t → dupsTotal t = 0 →
      keyOcc k t ≤ 1 := by
  induction t with
  | nil => intro lo hi k h hd; simp [keyOcc]
  | node k2 v2 bf d l r ihl ihr =>
    intro lo hi k h hd
    obtain ⟨hlo, hhi, hl, hr⟩ := h
    simp only [dupsTotal, Nat.add_eq_zero] at hd
    have hde : d = [] := List.length_eq_zero.mp (by omega)
    rw [keyOcc]
    by_cases h1 : k2 = k
    · subst h1
      rw [occ_zero_hi l lo k2 k2 hl (by omega) le_rfl,
        occ_zero_lo r hi k2 k2 hr (by omega) le_rfl]
      simp [hde]
    · by_cases h2 : k < k2
      · have hro : keyOcc k r = 0 :=
          occ_zero_lo r hi k2 k hr (by omega) (le_of_lt h2)
        have hlo2 := ihl lo (some k2) k hl (by omega)
        simp [hde, h1]
        omega
      · have h3 : k2 < k := lt_of_le_of_ne (not_lt.mp h2) h1
        have hlo2 : keyOcc k l = 0 :=
          occ_zero_hi l lo k2 k hl (by omega) (le_of_lt h3)
        have hro := ihr (some k2) hi k hr (by omega)
        simp [hde, h1]
        omega

end DistinctKeys

section C9

variable {α β : Type} [LinearOrder α] [DecidableEq β]

/-- Claim C9: copy assignment clears the destination and reinserts the
source's items but keeps the destination's `allowDuplicateKeys` policy
(which `clear()` never touches and `operator=` never copies), whereas the
copy constructor adopts the source's policy; consequently, assigning into a
destination constructed with `allowDuplicateKeys = false` leaves at most one
live occurrence of every key, so duplicate occurrences of the source do not
survive. -/
theorem c9_copy_assign_keeps_policy (d s : TreeSt α β) :
    (d.copyAssign s).allowDuplicateKeys = d.allowDuplicateKeys ∧
    s.copyCtor.allowDuplicateKeys = s.allowDuplicateKeys ∧
    (d.allowDuplicateKeys = false →
      ∀ k, keyOcc k (d.copyAssign s).root ≤ 1) := by
  refine ⟨?_, ?_, ?_⟩
  · unfold TreeSt.copyAssign
    exact (insertMany_flags s.getItems.1 _).1
  · unfold TreeSt.copyCtor treeOfItems
    exact (insertMany_flags s.getItems.1 _).1
  · intro haD k
    unfold TreeSt.copyAssign
    have hinv := insertMany_inv s.getItems.1
      ({ d with
          root := .nil
          count := 0
          height := 0
          invalidateHeight := false } : TreeSt α β) haD trivial rfl
    exact ordB_occ_le_one _ none none k hinv.1 hinv.2

/-- Witness for C9: a duplicate-allowing AVL source holding the key `1`
twice, assigned into a no-duplicates destination, keeps at most one
occurrence of `1`. -/
theorem c9_copy_assign_keeps_policy_witness :
    c9Dst.allowDuplicateKeys = false ∧ keyOcc (1 : Int) c9Src.root = 2 ∧
    keyOcc (1 : Int) (c9Dst.copyAssign c9Src).root ≤ 1 :=
  ⟨by decide, by decide,
    (c9_copy_assign_keeps_policy c9Dst c9Src).2.2 (by decide) 1⟩

end C9

section SerLemmas

/-- The little-endian encoding has exactly the requested width. -/
theorem natLE_length (w : Nat) : ∀ n : Nat, (natLE w n).length = w := by
  induction w with
  | zero => intro n; rfl
  | succ w ih => intro n; simp [natLE, ih]

/-- Decoding the little-endian encoding recovers the value modulo the
width. -/
theorem leBytesToNat_natLE (w : Nat) : ∀ n : Nat,
    leBytesToNat (natLE w n) = n % 256 ^ w := by
  induction w with
  | zero => intro n; simp [natLE, leBytesToNat, Nat.mod_one]
  | succ w ih =>
    intro n
    rw [natLE, leBytesToNat, ih (n / 256), pow_succ']
    rw [Nat.mod_mul]

/-- Reading back 8 stored bytes of an in-range 64-bit integer recovers it. -/
theorem decInt64_encInt64 {x : Int} (h : int64Range x) :
    decInt64 (encInt64 x) = x := by
  obtain ⟨h1, h2⟩ := h
  unfold decInt64 encInt64
  rw [leBytesToNat_natLE]
  have hpow : (256 : Nat) ^ 8 = 2 ^ 64 := by norm_num
  rw [hpow]
  have hnn : (0 : Int) ≤ x % 2 ^ 64 := Int.emod_nonneg x (by norm_num)
  have hlt : x % 2 ^ 64 < 2 ^ 64 := Int.emod_lt_of_pos x (by norm_num)
  have hmod : (x % 2 ^ 64).toNat % 2 ^ 64 = (x % 2 ^ 64).toNat :=
    Nat.mod_eq_of_lt (by omega)
  rw [hmod]
  show (if (x % 2 ^ 64).toNat < 2 ^ 63 then ((x % 2 ^ 64).toNat : Int)
      else ((x % 2 ^ 64).toNat : Int) - 2 ^ 64) = x
  split <;> omega

/-- Reading exactly the bytes sitting at the front of the stream succeeds. -/
theorem readBytes_exact {n : Nat} (xs rest : List Nat) (h : xs.length = n) :
    readBytes n (xs ++ rest) = some (xs, rest) := by
  subst h
  simp [readBytes, List.take_left, List.drop_left]

/-- Reading more bytes than remain fails. -/
theorem readBytes_short {n : Nat} (s : List Nat) (h : s.length < n) :
    readBytes n s = none := by
  simp [readBytes]
  omega

/-- An encoded 64-bit integer occupies 8 bytes. -/
theorem encInt64_length (x : Int) : (encInt64 x).length = 8 := by
  simp [encInt64, natLE_length]

/-- An integer record occupies 16 bytes. -/
theorem intRec_length (x : Int) : (intRec x).length = 16 := by
  simp [intRec, sizeRec, natLE_length, encInt64_length]

/-- A key-value record occupies 32 bytes. -/
theorem kvRec_length (p : Int × Int) : (kvRec p).length = 32 := by
  simp [kvRec, intRec_length]

/-- The record stream of an item list occupies 32 bytes per item. -/
theorem flatMap_kvRec_length (items : List (Int × Int)) :
    (items.flatMap kvRec).length = 32 * items.length := by
  induction items with
  | nil => rfl
  | cons it rest ih => simp [ih, kvRec_length]; ring

/-- Reading an integer record at the front of the stream succeeds and
consumes exactly the record. -/
theorem readIntVar_ok {x : Int} (h : int64Range x) (rest : List Nat) :
    readIntVar (intRec x ++ rest) = .ok x rest := by
  unfold readIntVar readFund intRec sizeRec
  rw [List.append_assoc, readBytes_exact (natLE 8 8) _ (natLE_length 8 8)]
  dsimp only
  rw [leBytesToNat_natLE]
  have h8 : 8 % 256 ^ 8 = 8 := by norm_num
  rw [h8, readBytes_exact (encInt64 x) rest (encInt64_length x)]
  simp [decInt64_encInt64 h]

/-- Reading an integer record from a proper prefix of one fails with the
stream read failure (never the corrupt marker): a cut inside the size field
fails the size read, a cut inside the payload fails the payload read. -/
theorem readIntVar_take_fail {x : Int} {j : Nat} (hj : j < 16) :
    readIntVar ((intRec x).take j) = .fail := by
  by_cases h8 : j < 8
  · have hlen : ((intRec x).take j).length = j := by
      simp [List.length_take, intRec_length]
      omega
    unfold readIntVar readFund
    rw [readBytes_short _ (by omega)]
  · have hsplit : (intRec x).take j = natLE 8 8 ++ (encInt64 x).take (j - 8) := by
      unfold intRec sizeRec
      rw [List.take_append_eq_append_take]
      congr 1
      exact List.take_of_length_le (by simp [natLE_length]; omega)
    unfold readIntVar readFund
    rw [hsplit, readBytes_exact (natLE 8 8) _ (natLE_length 8 8)]
    dsimp only
    rw [leBytesToNat_natLE]
    have h8e : 8 % 256 ^ 8 = 8 := by norm_num
    rw [h8e, readBytes_short _ (by simp [List.length_take, encInt64_length]; omega)]

/-- Reading the `allowDuplicateKeys` record at the front of the stream
succeeds. -/
theorem readBoolVar_ok (b : Bool) (rest : List Nat) :
    readBoolVar (boolRec b ++ rest) = .ok b rest := by
  unfold readBoolVar readFund boolRec sizeRec
  rw [List.append_assoc, readBytes_exact (natLE 8 1) _ (natLE_length 8 1)]
  dsimp only
  rw [leBytesToNat_natLE]
  have h1 : 1 % 256 ^ 8 = 1 := by norm_num
  rw [h1, readBytes_exact [if b then 1 else 0] rest (by simp)]
  cases b <;> simp [decBoolBytes]

end SerLemmas

section DLoopLemmas

/-- The record loop parses a list of complete in-range records at the front
of the stream and continues on the remaining bytes with the fuel it has
left. -/
theorem dLoop_app (items : List (Int × Int)) :
    ∀ (fuel : Nat) (tail : List Nat), (∀ p ∈ items, pairRange p) →
      items.length < fuel →
      dLoop fuel (items.flatMap kvRec ++ tail) =
        (match dLoop (fuel - items.length) tail with
         | some (some rest) => some (some (items ++ rest))
         | x => x) := by
  induction items with
  | nil =>
    intro fuel tail hr hf
    simp only [List.flatMap_nil, List.nil_append, List.length_nil, Nat.sub_zero]
    rcases hdl : dLoop fuel tail with _ | (_ | r) <;> simp [hdl]
  | cons it rest ih =>
    intro fuel tail hr hf
    obtain ⟨f, rfl⟩ : ∃ f, fuel = f + 1 := ⟨fuel - 1, by omega⟩
    have hit := hr it (by simp)
    have hrest : ∀ p ∈ rest, pairRange p := fun p hp => hr p (by simp [hp])
    simp only [List.flatMap_cons, kvRec, List.append_assoc]
    rw [dLoop, readIntVar_ok hit.1]
    dsimp only
    rw [readIntVar_ok hit.2]
    dsimp only
    rw [ih f tail hrest (by simp at hf; omega)]
    have hfe : f + 1 - (it :: rest).length = f - rest.length := by
      simp [List.length_cons]
    rw [hfe]
    rcases hdl : dLoop (f - rest.length) tail with _ | (_ | r) <;> simp [hdl]

/-- A stream ending inside the key half of a record parses as a clean end of
stream with no record. -/
theorem dLoop_take_key {q : Int × Int} {j : Nat} (hj : j < 16) (fuel : Nat)
    (hf : 1 ≤ fuel) :
    dLoop fuel ((kvRec q).take j) = some (some []) := by
  obtain ⟨f, rfl⟩ : ∃ f, fuel = f + 1 := ⟨fuel - 1, by omega⟩
  have hsplit : (kvRec q).take j = (intRec q.1).take j := by
    unfold kvRec
    exact List.take_append_of_le_length (by rw [intRec_length]; omega)
  rw [dLoop, hsplit, readIntVar_take_fail hj]

/-- A stream ending inside the value half of a record parses as a corrupt
file. -/
theorem dLoop_take_val {q : Int × Int} {j : Nat} (h16 : 16 ≤ j) (hj : j < 32)
    (hq : pairRange q) (fuel : Nat) (hf : 1 ≤ fuel) :
    dLoop fuel ((kvRec q).take j) = some none := by
  obtain ⟨f, rfl⟩ : ∃ f, fuel = f + 1 := ⟨fuel - 1, by omega⟩
  have hsplit : (kvRec q).take j = intRec q.1 ++ (intRec q.2).take (j - 16) := by
    unfold kvRec
    rw [List.take_append_eq_append_take]
    congr 1
    exact List.take_of_length_le (by rw [intRec_length]; omega)
  rw [dLoop, hsplit, readIntVar_ok hq.1]
  dsimp only
  rw [readIntVar_take_fail (show j - 16 < 16 by omega)]

end DLoopLemmas

section C5Amended

/-- Claim C5 (amended): consider the stream of the `allowDuplicateKeys`
record followed by the records of `items` and then the first `j` bytes
(`j < 32`) of one further record.  When the cut falls inside the key half of
the extra record (`j < 16`, which includes the clean record boundary
`j = 0`), the failed key read is treated as normal end of stream and
deserialization yields the tree bulk-built from exactly the complete records
read, with the recovered flag.  Only when the cut falls inside the value
half (`16 ≤ j < 32`) is the file reported corrupt, and deserialization
yields the default-constructed empty tree. -/
theorem c5_truncation_behaviour (bal b : Bool) (items : List (Int × Int))
    (q : Int × Int) (j : Nat) (hitems : ∀ p ∈ items, pairRange p)
    (hq : pairRange q) (hj : j < 32) :
    deserializeBytes bal (boolRec b ++ (items.flatMap kvRec ++ (kvRec q).take j)) =
      (if j < 16 then some (treeOfItems bal b items)
       else some (TreeSt.new bal true)) := by
  unfold deserializeBytes
  rw [readBoolVar_ok]
  dsimp only
  have hlen : (items.flatMap kvRec ++ (kvRec q).take j).length =
      32 * items.length + min j 32 := by
    rw [List.length_append, flatMap_kvRec_length, List.length_take, kvRec_length]
  rw [dLoop_app items _ _ hitems (by omega)]
  by_cases hj16 : j < 16
  · rw [dLoop_take_key hj16 _ (by omega)]
    simp [hj16]
  · rw [dLoop_take_val (by omega) hj hq _ (by omega)]
    simp [hj16]

/-- Witness for the amended C5 at concrete streams: a cut after 20 bytes of
the extra record (inside its value half) yields the default empty tree. -/
theorem c5_truncation_behaviour_witness :
    pairRange ((3 : Int), (4 : Int)) ∧
    deserializeBytes true
        (boolRec true ++ ([((1 : Int), (2 : Int))].flatMap kvRec ++ (kvRec (3, 4)).take 20)) =
      some (TreeSt.new true true) := by
  constructor
  · constructor <;> constructor <;> norm_num
  · have h := c5_truncation_behaviour true true [(1, 2)] (3, 4) 20
      (by intro p hp; simp at hp; subst hp; constructor <;> constructor <;> norm_num)
      (by constructor <;> constructor <;> norm_num) (by norm_num)
    simpa using h

end C5Amended
